import Mathlib

/-!
# Verification of the go-scim MongoDB database adapter and filter-stage index

Shallow embedding of:
* `mongo.mongoDB` (src/server/args/rabbit.go, package mongo): the `db.DB`
  implementation backed by a MongoDB collection — `Insert`, `Count`, `Get`,
  `Replace`, `Delete`, `Query`, and the helpers `mongoPathFor`, `mongoSort`,
  `mongoPagination`, `mongoProjection`, `errPrecondition`, `DBOptions`.
* `services.GetService.GetResource` (src/protocol/services/get.go).
* `stage.buildIndex` (src/protocol/stage/filter.go).

The MongoDB driver itself is external; the collection is modelled as a list of
stored documents and the driver's single-document operations (`FindOne`,
`FindOneAndReplace`, `FindOneAndDelete`, `InsertOne`, `CountDocuments`, `Find`)
as pure functions over that list.  A stored document is modelled as the
resource it deserializes back into (`newBsonAdapter` / `newResourceUnmarshaler`
are inverse serialization shims).
-/

namespace GoScim

/-- A SCIM attribute (core.Attribute / spec.Attribute): id, name, its canonical
dotted path, and its sub-attributes.  Only the fields consulted by the verified
code are modelled. -/
inductive Attr where
  | mk (id : String) (name : String) (path : String) (subs : List Attr)

def Attr.id : Attr → String
  | .mk i _ _ _ => i

def Attr.name : Attr → String
  | .mk _ n _ _ => n

def Attr.path : Attr → String
  | .mk _ _ p _ => p

def Attr.subs : Attr → List Attr
  | .mk _ _ _ s => s

/-- `Attribute.SubAttributeForName`: look up a direct sub-attribute by name.
Modelled from the spec: the attribute-tree walk resolves each path step to a
sub-attribute of the current attribute (core package not under src/). -/
def Attr.subAttributeForName (a : Attr) (nm : String) : Option Attr :=
  a.subs.find? (fun s => s.name == nm)

/-- prop.Resource, restricted to the accessors the verified code calls:
ID(), Version(), Location().  A stored MongoDB document is modelled as the
resource it round-trips through newBsonAdapter / newResourceUnmarshaler. -/
structure Resource where
  ID : String
  Version : String
  Location : String
deriving Repr, DecidableEq

/-- SCIM error kinds produced by the verified code (core/errors is not under
src/; each constructor models one of its factory functions), plus `backend`
for raw driver errors that the source passes through unmapped. -/
inductive ScimError where
  | notFound (detail : String)
  | preCondition (detail : String)
  | backend (detail : String)
deriving Repr, DecidableEq

/-- Driver-level errors: the source distinguishes `mongo.ErrNoDocuments`;
every other driver error is opaque. -/
inductive MongoErr where
  | noDocuments
  | other (msg : String)
deriving Repr, DecidableEq

/-- A bson.D document restricted to the shapes the verified code builds for
sorts and projections: ordered (Key, Value) pairs with integer values. -/
abbrev BsonD := List (String × Int)

/-- Replace the first document satisfying `pred` (helper for the driver's
FindOneAndReplace). -/
def replaceFirst : List Resource → (Resource → Bool) → Resource → List Resource
  | [], _, _ => []
  | d :: ds, pred, new => if pred d then new :: ds else d :: replaceFirst ds pred new

/-- Remove the first document satisfying `pred` (helper for the driver's
FindOneAndDelete). -/
def removeFirst : List Resource → (Resource → Bool) → List Resource
  | [], _ => []
  | d :: ds, pred => if pred d then ds else d :: removeFirst ds pred

/-- Modelled from the spec: the driver's FindOne on the external document
store returns the first stored document matching the filter, or
ErrNoDocuments.  The projection argument narrows the returned fields; that
narrowing is not observable on the Resource model (its three fields are
always stored), so claims about projection are stated on the projection
document the caller issues. -/
def findOne (docs : List Resource) (pred : Resource → Bool)
    (_projection : Option BsonD) : Except MongoErr Resource :=
  match docs.find? pred with
  | some d => .ok d
  | none => .error .noDocuments

/-- Modelled from the spec: FindOneAndReplace replaces the first matching
document and returns its pre-image, or ErrNoDocuments when nothing matches. -/
def findOneAndReplace (docs : List Resource) (pred : Resource → Bool)
    (new : Resource) : Except MongoErr Resource × List Resource :=
  match docs.find? pred with
  | some d => (.ok d, replaceFirst docs pred new)
  | none => (.error .noDocuments, docs)

/-- Modelled from the spec: FindOneAndDelete deletes the first matching
document and returns its pre-image, or ErrNoDocuments when nothing matches. -/
def findOneAndDelete (docs : List Resource) (pred : Resource → Bool) :
    Except MongoErr Resource × List Resource :=
  match docs.find? pred with
  | some d => (.ok d, removeFirst docs pred)
  | none => (.error .noDocuments, docs)

/-- Modelled from the spec: InsertOne against a collection where ensureIndex
has created a unique MongoDB index on the unique `id` attribute — inserting a
duplicate id yields a driver duplicate-key error. -/
def insertOne (docs : List Resource) (r : Resource) :
    Except MongoErr (List Resource) :=
  if docs.any (fun d => d.ID == r.ID) then .error (.other "duplicate key")
  else .ok (docs ++ [r])

/-- Modelled from the spec: CountDocuments returns the number of matching
documents; on a driver failure (network etc., injected by `outcome`) it
returns 0 together with the error — exactly the pair the source destructures
as `n, err`. -/
def countDocuments (docs : List Resource) (pred : Resource → Bool)
    (outcome : Option MongoErr) : Int × Option MongoErr :=
  match outcome with
  | some e => (0, some e)
  | none => (((docs.filter pred).length : Int), none)

/-- The registered per-attribute metadata (metadata.go is not under src/):
only the MongoPath alias is consulted by the verified code. -/
structure Metadata where
  MongoPath : String
deriving Repr, DecidableEq

/-- DBOptions with its ignoreProjection toggle. -/
structure DBOptions where
  ignoreProjection : Bool
deriving Repr, DecidableEq

/-- `Options()`: fresh DBOptions. -/
def Options : DBOptions := ⟨false⟩

/-- `DBOptions.IgnoreProjection()`: set the toggle. -/
def DBOptions.IgnoreProjection (opt : DBOptions) : DBOptions :=
  { opt with ignoreProjection := true }

/-- crud.Projection (protocol/crud is not under src/; fields per the spec's
projection `{include, exclude}` and their use sites in the source). -/
structure Projection where
  Attributes : List String
  ExcludedAttributes : List String
deriving Repr, DecidableEq

/-- crud.Pagination: 1-based startIndex and a count, per RFC 7644. -/
structure Pagination where
  StartIndex : Int
  Count : Int
deriving Repr, DecidableEq

/-- crud.Sort (`Sort` itself is reserved in Lean).  Modelled from the spec:
the Order field carries the RFC 7644 sortOrder value. -/
structure SortParam where
  By : String
  Order : String
deriving Repr, DecidableEq

/-- crud.SortAsc.  Modelled from the spec (RFC 7644 sortOrder). -/
def SortAsc : String := "ascending"

/-- crud.SortDesc.  Modelled from the spec (RFC 7644 sortOrder). -/
def SortDesc : String := "descending"

/-- crud.SortDefault.  Modelled from the spec: the zero value used when no
sortOrder was supplied. -/
def SortDefault : String := ""

/-- The fields of the `mongoDB` struct consulted by the verified methods.
`compilePath` stands for expr.CompilePath (core/expr is not under src/):
`none` models a compilation error, `some tokens` the compiled token chain.
`schemaId` is resourceType.Schema().ID(). -/
structure MongoDB where
  superAttr : Attr
  schemaId : String
  metadataHub : List (String × Metadata)
  compilePath : String → Option (List String)
  opt : DBOptions

/-- The token loop of mongoPathFor: descend one sub-attribute per token,
returning the attribute the whole chain resolves to. -/
def walkTokens : Attr → List String → Option Attr
  | a, [] => some a
  | a, t :: rest =>
    match a.subAttributeForName t with
    | none => none
    | some s => walkTokens s rest

/-- The leading-token skip of mongoPathFor: a first token equal to the id of
the resource type's default schema is dropped. -/
def skipSchemaToken (schemaId : String) : List String → List String
  | [] => []
  | t :: rest => if t == schemaId then rest else t :: rest

/-- mongoDB.mongoPathFor: resolve a SCIM path to the MongoDB persistence
path.  A leading token equal to the default schema id is skipped; a
CompilePath error, an exhausted cursor or an unresolvable step yields "";
otherwise the registered metadata's MongoPath, or the attribute's own path,
is returned. -/
def MongoDB.mongoPathFor (d : MongoDB) (path : String) : String :=
  match d.compilePath path with
  | none => ""
  | some tokens =>
    match skipSchemaToken d.schemaId tokens with
    | [] => ""
    | t :: rest =>
      match walkTokens d.superAttr (t :: rest) with
      | none => ""
      | some curAttr =>
        match d.metadataHub.lookup curAttr.id with
        | some md => md.MongoPath
        | none => curAttr.path

/-- Modelled from the spec: the compiled-and-transformed form of the filter
string "id eq <quoted id>" built by Get (expr.CompileFilter and the bson
transformer are not under src/): it matches documents whose id equals the
literal. -/
def idEqFilter (id : String) : Resource → Bool :=
  fun doc => doc.ID == id

/-- Modelled from the spec: the compiled-and-transformed form of
"(id eq <id>) and (meta.version eq <version>)" as built by Replace and
Delete — optimistic concurrency matches on the (id, version) pair. -/
def idVersionFilter (id version : String) : Resource → Bool :=
  fun doc => doc.ID == id && doc.Version == version

/-- mongoDB.errPrecondition. -/
def MongoDB.errPrecondition (_d : MongoDB) (id : String) : ScimError :=
  .preCondition ("resource by id [" ++ id ++
    "] does not exist, or another process has updated it since last read")

/-- errors.NotFound("resource by id [%s] does not exist", id) as raised by
Get. -/
def errNotFoundById (id : String) : ScimError :=
  .notFound ("resource by id [" ++ id ++ "] does not exist")

/-- mongoDB.Insert.  The source logs any driver error and then reaches
`return nil` unconditionally: the returned error is always nil.  The pair
also carries the collection state after the call. -/
def MongoDB.Insert (_d : MongoDB) (docs : List Resource) (resource : Resource) :
    Except ScimError Unit × List Resource :=
  match insertOne docs resource with
  | .error _e => (.ok (), docs)
  | .ok docs2 => (.ok (), docs2)

/-- mongoDB.Count.  The filter argument is given in compiled form (the
result of mongoFilter, whose compile errors are propagated); `outcome`
injects a possible CountDocuments driver failure.  The source logs such a
failure and still returns `int(n), nil`. -/
def MongoDB.Count (_d : MongoDB) (docs : List Resource)
    (filter : Except ScimError (Resource → Bool)) (outcome : Option MongoErr) :
    Except ScimError Int :=
  match filter with
  | .error e => .error e
  | .ok pred =>
    let n := (countDocuments docs pred outcome).1
    .ok n

/-- mongoDB.mongoProjection: build the bson projection document.  Note that
the source iterates `projection.Attributes` in the ExcludedAttributes branch
as well. -/
def MongoDB.mongoProjection (d : MongoDB) (projection : Projection) : BsonD :=
  if projection.Attributes.length > 0 then
    projection.Attributes.filterMap (fun p =>
      let mp := d.mongoPathFor p
      if mp.length > 0 then some (mp, 1) else none)
  else if projection.ExcludedAttributes.length > 0 then
    projection.Attributes.filterMap (fun p =>
      let mp := d.mongoPathFor p
      if mp.length > 0 then some (mp, 0) else none)
  else []

/-- The FindOne option accumulation in Get: a projection is set only when
the ignoreProjection toggle is off and a projection argument was supplied. -/
def MongoDB.getFindOneProjection (d : MongoDB) (projection : Option Projection) :
    Option BsonD :=
  if !d.opt.ignoreProjection then projection.map d.mongoProjection else none

/-- mongoDB.Get: FindOne by the filter "id eq <quoted id>" (that fixed filter
always compiles, so the mongoFilter error branch is unreachable here);
ErrNoDocuments maps to errors.NotFound, any other driver error is returned
as-is; the found document decodes to the resource. -/
def MongoDB.Get (d : MongoDB) (docs : List Resource) (id : String)
    (projection : Option Projection) : Except ScimError Resource :=
  match findOne docs (idEqFilter id) (d.getFindOneProjection projection) with
  | .error .noDocuments => .error (errNotFoundById id)
  | .error (.other m) => .error (.backend m)
  | .ok doc => .ok doc

/-- mongoDB.Replace: FindOneAndReplace by the filter
"(id eq <resource.ID>) and (meta.version eq <oldVersion>)"; ErrNoDocuments
maps to errPrecondition, any other driver error is returned as-is.  The pair
also carries the collection state after the call. -/
def MongoDB.Replace (d : MongoDB) (docs : List Resource) (resource : Resource)
    (oldVersion : String) : Except ScimError Unit × List Resource :=
  let tf := idVersionFilter resource.ID oldVersion
  match findOneAndReplace docs tf resource with
  | (.error .noDocuments, docs2) => (.error (d.errPrecondition resource.ID), docs2)
  | (.error (.other m), docs2) => (.error (.backend m), docs2)
  | (.ok _pre, docs2) => (.ok (), docs2)

/-- mongoDB.Delete: FindOneAndDelete by the filter
"(id eq <resource.ID>) and (meta.version eq <resource.Version>)";
ErrNoDocuments maps to errPrecondition, any other driver error is returned
as-is. -/
def MongoDB.Delete (d : MongoDB) (docs : List Resource) (resource : Resource) :
    Except ScimError Unit × List Resource :=
  let tf := idVersionFilter resource.ID resource.Version
  match findOneAndDelete docs tf with
  | (.error .noDocuments, docs2) => (.error (d.errPrecondition resource.ID), docs2)
  | (.error (.other m), docs2) => (.error (.backend m), docs2)
  | (.ok _pre, docs2) => (.ok (), docs2)

/-- The `by` selection block of mongoDB.mongoSort: fall back to the internal
"_id" field when sort.By is empty or resolves to no MongoDB persistence
path. -/
def MongoDB.sortBySelection (d : MongoDB) (sort : SortParam) : String :=
  let b := if sort.By.length > 0 then d.mongoPathFor sort.By else ""
  if b.length == 0 then "_id" else b

/-- mongoDB.mongoSort: build the bson sort document.  The source panics on
any sort order other than ascending, descending or the default; the panic is
modelled as `none`. -/
def MongoDB.mongoSort (d : MongoDB) (sort : SortParam) : Option BsonD :=
  if sort.Order == SortAsc || sort.Order == SortDefault then
    some [(d.sortBySelection sort, 1)]
  else if sort.Order == SortDesc then
    some [(d.sortBySelection sort, -1)]
  else
    none

/-- mongoDB.mongoPagination: skip = StartIndex - 1, limit = Count. -/
def MongoDB.mongoPagination (_d : MongoDB) (pagination : Pagination) :
    Int × Int :=
  (pagination.StartIndex - 1, pagination.Count)

/-- The options.Find() accumulation in Query: sort, skip, limit and
projection, each set only on its guarded branch. -/
structure FindOptions where
  sort : Option BsonD := none
  skip : Option Int := none
  limit : Option Int := none
  projection : Option BsonD := none
deriving Repr, DecidableEq

/-- The Find options Query accumulates before issuing the fetch; `none`
models the mongoSort panic on an invalid sort order. -/
def MongoDB.queryFindOptions (d : MongoDB) (sort : Option SortParam)
    (pagination : Option Pagination) (projection : Option Projection) :
    Option FindOptions :=
  let afterSort : Option FindOptions :=
    match sort with
    | none => some {}
    | some s => (d.mongoSort s).map (fun sd => { sort := some sd })
  match afterSort with
  | none => none
  | some o1 =>
    let o2 : FindOptions :=
      match pagination with
      | none => o1
      | some p =>
        let (skip, limit) := d.mongoPagination p
        { o1 with skip := some skip, limit := some limit }
    let o3 : FindOptions :=
      if !d.opt.ignoreProjection then
        match projection with
        | some pr => { o2 with projection := some (d.mongoProjection pr) }
        | none => o2
      else o2
    some o3

/-- Modelled from the spec: the driver's Find applies the filter, then the
server-side sort, then skip, then limit.  `sortSem` abstracts the server's
ordering for a given sort document (BSON value ordering is external to the
source); with no sort document the collection order is kept.  The skip and
limit counts are meaningful for non-negative values (the server rejects
negative ones). -/
def findMany (docs : List Resource) (pred : Resource → Bool)
    (fo : FindOptions) (sortSem : BsonD → List Resource → List Resource) :
    List Resource :=
  let matched := docs.filter pred
  let sorted :=
    match fo.sort with
    | none => matched
    | some sd => sortSem sd matched
  let skipped :=
    match fo.skip with
    | none => sorted
    | some s => sorted.drop s.toNat
  match fo.limit with
  | none => skipped
  | some l => skipped.take l.toNat

/-- mongoDB.Query.  The filter argument is given in compiled form (the
result of mongoFilter, computed first in the source); decoding each cursor
document is the identity on the Resource model.  The outer `none` models the
mongoSort panic. -/
def MongoDB.Query (d : MongoDB) (docs : List Resource)
    (filter : Except ScimError (Resource → Bool)) (sort : Option SortParam)
    (pagination : Option Pagination) (projection : Option Projection)
    (sortSem : BsonD → List Resource → List Resource) :
    Option (Except ScimError (List Resource)) :=
  match filter with
  | .error e => some (.error e)
  | .ok pred =>
    match d.queryFindOptions sort pagination projection with
    | none => none
    | some fo => some (.ok (findMany docs pred fo sortSem))

/-- services.GetRequest. -/
structure GetRequest where
  Projection : Option Projection
  ResourceID : String

/-- services.GetResponse. -/
structure GetResponse where
  Resource : GoScim.Resource
  Location : String
  Version : String
deriving Repr, DecidableEq

/-- services.GetService: the db.DB dependency is abstracted to its Get
method, the only one GetResource calls. -/
structure GetService where
  DatabaseGet : String → Option Projection → Except ScimError Resource

/-- GetService.GetResource: delegate to Database.Get; on error, log and
return that error; on success, wrap the resource with its Location() and
Version(). -/
def GetService.GetResource (s : GetService) (request : GetRequest) :
    Except ScimError GetResponse :=
  match s.DatabaseGet request.ResourceID request.Projection with
  | .error err => .error err
  | .ok resource =>
    .ok { Resource := resource
          Location := resource.Location
          Version := resource.Version }

/-- stage.PropertyFilter, reduced to the members buildIndex consults:
Supports and Order.  `tag` models the object identity of a loaded filter
instance (its position in the load order); the code never reads it, but the
stability of the sort is stated through it. -/
structure PropertyFilter where
  tag : Nat
  Order : Int
  Supports : Attr → Bool

/-- core.ResourceType, reduced to the member buildIndex consults:
DerivedAttributes() — every attribute reachable under the super attribute
(computed in the core package, which is not under src/, so kept as data). -/
structure ResourceType where
  DerivedAttributes : List Attr

/-- The union of derived attributes over all loaded resource types, in
iteration order (the two nested loops of buildIndex). -/
def derivedAttrUnion (resourceTypes : List ResourceType) : List Attr :=
  resourceTypes.flatMap (fun rt => rt.DerivedAttributes)

/-- The unique-attribute set buildIndex builds (`map[*core.Attribute]`
keyed by pointer in the source).  In the model attributes are values and —
per the spec — attribute ids are globally unique, so keeping the first
occurrence of each id is the same set; the index derived from it is queried
only through lookup, so the set's iteration order is immaterial.  One step
keeps the accumulator when the id was seen already. -/
def dedupStep (acc : List Attr) (a : Attr) : List Attr :=
  if acc.any (fun b => b.id == a.id) then acc else acc ++ [a]

/-- The unique-attribute set, folded over the derived-attribute union. -/
def dedupById (attrs : List Attr) : List Attr :=
  attrs.foldl dedupStep []

/-- One step of the insertion sort in buildIndex, with the sorted prefix kept
reversed: insert the next element, swapping down while the element on its
left has a strictly greater Order — the loop body
`if orders[j-1] > orders[j] { swap }`.  (The Go inner loop keeps scanning
down to j = 1 after the element settles, but on the already-sorted prefix
those remaining comparisons never swap, so one settling pass is the whole
effect.) -/
def bubble : List PropertyFilter → PropertyFilter → List PropertyFilter
  | [], x => [x]
  | y :: ys, x => if x.Order < y.Order then y :: bubble ys x else x :: y :: ys

/-- The insertion sort in buildIndex, performed only when more than one
filter supports the attribute: left-to-right over the slice, bubbling each
element down into the sorted prefix. -/
def sortFilters (fs : List PropertyFilter) : List PropertyFilter :=
  if fs.length > 1 then (fs.foldl bubble []).reverse else fs

/-- The index entry buildIndex produces for one attribute: the filters
supporting it, in load order, sorted; no entry when none supports it. -/
def indexEntry (filters : List PropertyFilter) (attr : Attr) :
    Option (String × List PropertyFilter) :=
  let supported := filters.filter (fun f => f.Supports attr)
  if supported.isEmpty then none
  else some (attr.id, sortFilters supported)

/-- stage.buildIndex: over the unique set of derived attributes, collect for
each attribute the filters that support it (in filters order), sort each
such list by Order with the insertion sort, and key the result map by
attribute id.  The source builds the intermediate `index` map and the final
`result` map in two loops; fused here, the entries are identical. -/
def buildIndex (resourceTypes : List ResourceType)
    (filters : List PropertyFilter) : List (String × List PropertyFilter) :=
  (dedupById (derivedAttrUnion resourceTypes)).filterMap (indexEntry filters)

/-- The ordering stated for the index lists: strictly ascending Order, ties
resolved by load order. -/
def filterLE (f g : PropertyFilter) : Prop :=
  f.Order < g.Order ∨ (f.Order = g.Order ∧ f.tag ≤ g.tag)

/-! ## Theorems -/

/-- A small concrete database model used by the closed evaluation
theorems: a User-like resource type with a single userName sub-attribute. -/
def sampleDB : MongoDB :=
  { superAttr :=
      .mk "urn:User" "User" "urn:User"
        [.mk "urn:User:userName" "userName" "userName" []]
    schemaId := "urn:User"
    metadataHub := []
    compilePath := fun _ => none
    opt := ⟨false⟩ }

/-- C1: for every resource and old version, Replace matches the stored
document by the pair (resource id, supplied old version) and Delete by
(resource id, the resource's current version); whenever no stored document
matches the respective pair, both return the preCondition error and neither
returns a notFound error. -/
theorem Replace_Delete_useOptimisticConcurrency (d : MongoDB)
    (docs : List Resource) (resource : Resource) (oldVersion : String)
    (hrep : ∀ doc ∈ docs, ¬(doc.ID = resource.ID ∧ doc.Version = oldVersion))
    (hdel : ∀ doc ∈ docs,
      ¬(doc.ID = resource.ID ∧ doc.Version = resource.Version)) :
    (d.Replace docs resource oldVersion).1
        = .error (d.errPrecondition resource.ID)
    ∧ (d.Delete docs resource).1 = .error (d.errPrecondition resource.ID)
    ∧ (∀ m, (d.Replace docs resource oldVersion).1 ≠ .error (.notFound m))
    ∧ (∀ m, (d.Delete docs resource).1 ≠ .error (.notFound m)) := by
  have hfr : docs.find? (idVersionFilter resource.ID oldVersion) = none := by
    rw [List.find?_eq_none]
    intro doc hd
    simp only [idVersionFilter, Bool.and_eq_true, beq_iff_eq, not_and]
    intro h1 h2
    exact hrep doc hd ⟨h1, h2⟩
  have hfd : docs.find? (idVersionFilter resource.ID resource.Version)
      = none := by
    rw [List.find?_eq_none]
    intro doc hd
    simp only [idVersionFilter, Bool.and_eq_true, beq_iff_eq, not_and]
    intro h1 h2
    exact hdel doc hd ⟨h1, h2⟩
  refine ⟨?_, ?_, ?_, ?_⟩
  · simp [MongoDB.Replace, findOneAndReplace, hfr]
  · simp [MongoDB.Delete, findOneAndDelete, hfd]
  · intro m
    simp [MongoDB.Replace, findOneAndReplace, hfr, MongoDB.errPrecondition]
  · intro m
    simp [MongoDB.Delete, findOneAndDelete, hfd, MongoDB.errPrecondition]

/-- C1 witness: a store holding version v1 of resource a; replacing with
stale old version v0, or deleting a copy carrying version v2, both fail with
the preCondition error. -/
theorem Replace_Delete_useOptimisticConcurrency_witness :
    (sampleDB.Replace [⟨"a", "v1", "loc"⟩] ⟨"a", "v2", "loc"⟩ "v0").1
        = .error (sampleDB.errPrecondition "a")
    ∧ (sampleDB.Delete [⟨"a", "v1", "loc"⟩] ⟨"a", "v2", "loc"⟩).1
        = .error (sampleDB.errPrecondition "a") := by
  have h := Replace_Delete_useOptimisticConcurrency sampleDB
    [⟨"a", "v1", "loc"⟩] ⟨"a", "v2", "loc"⟩ "v0"
    (by decide) (by decide)
  exact ⟨h.1, h.2.1⟩

/-- C2 (code bug): Insert returns nil unconditionally — the driver's
duplicate-key error on an id collision is logged and then discarded, so the
caller observes success; shown in general and at a concrete collision where
the modelled InsertOne does report the duplicate. -/
theorem Insert_swallowsDriverError :
    (∀ (d : MongoDB) (docs : List Resource) (r : Resource),
        (d.Insert docs r).1 = .ok ())
    ∧ insertOne [⟨"a", "v1", "l1"⟩] ⟨"a", "v2", "l2"⟩
        = .error (.other "duplicate key")
    ∧ (sampleDB.Insert [⟨"a", "v1", "l1"⟩] ⟨"a", "v2", "l2"⟩).1 = .ok () := by
  refine ⟨?_, rfl, rfl⟩
  intro d docs r
  unfold MongoDB.Insert
  cases insertOne docs r <;> rfl

/-- C3 (code bug): when the backend CountDocuments operation fails, Count
still returns the pair (0, nil) — the driver error is logged and then
discarded, so the caller observes a successful count of zero; shown in
general and at a concrete failing fetch. -/
theorem Count_swallowsDriverError :
    (∀ (d : MongoDB) (docs : List Resource) (pred : Resource → Bool)
        (e : MongoErr), d.Count docs (.ok pred) (some e) = .ok 0)
    ∧ sampleDB.Count [⟨"a", "v1", "l1"⟩] (.ok (fun _ => true))
        (some (.other "network error")) = .ok 0 := by
  constructor
  · intro d docs pred e
    rfl
  · rfl

/-- C7: GetService.GetResource propagates exactly the error of Database.Get
(in particular, the notFound error raised by the mongo Get when no stored
document carries the requested id), and on success wraps the fetched
resource with that resource's Location() and Version(). -/
theorem GetService_GetResource_spec
    (dbGet : String → Option Projection → Except ScimError Resource)
    (req : GetRequest) :
    (∀ e, dbGet req.ResourceID req.Projection = .error e →
        GetService.GetResource ⟨dbGet⟩ req = .error e)
    ∧ (∀ r, dbGet req.ResourceID req.Projection = .ok r →
        GetService.GetResource ⟨dbGet⟩ req
          = .ok ⟨r, r.Location, r.Version⟩)
    ∧ (∀ (d : MongoDB) (docs : List Resource),
        (∀ doc ∈ docs, doc.ID ≠ req.ResourceID) →
        d.Get docs req.ResourceID req.Projection
            = .error (errNotFoundById req.ResourceID)
        ∧ GetService.GetResource ⟨d.Get docs⟩ req
            = .error (errNotFoundById req.ResourceID)
        ∧ ∀ m, errNotFoundById req.ResourceID ≠ .preCondition m) := by
  refine ⟨?_, ?_, ?_⟩
  · intro e he
    simp [GetService.GetResource, he]
  · intro r hr
    simp [GetService.GetResource, hr]
  · intro d docs hids
    have hfind : docs.find? (idEqFilter req.ResourceID) = none := by
      rw [List.find?_eq_none]
      intro doc hd
      simp only [idEqFilter, beq_iff_eq]
      exact hids doc hd
    have hget : d.Get docs req.ResourceID req.Projection
        = .error (errNotFoundById req.ResourceID) := by
      simp [MongoDB.Get, findOne, hfind]
    refine ⟨hget, ?_, ?_⟩
    · simp [GetService.GetResource, hget]
    · intro m
      simp [errNotFoundById]

/-- C7 witness: fetching id x from an empty store surfaces the notFound
error through GetService.GetResource. -/
theorem GetService_GetResource_spec_witness :
    GetService.GetResource ⟨sampleDB.Get []⟩ ⟨none, "x"⟩
      = .error (errNotFoundById "x") :=
  ((GetService_GetResource_spec (sampleDB.Get []) ⟨none, "x"⟩).2.2
    sampleDB [] (by intro doc hd; cases hd)).2.1

/-- C8: with the ignoreProjection toggle set, Get and Query build their
fetch options with no projection document, and their results do not depend
on the caller-supplied projection parameter at all. -/
theorem ignoreProjection_forcesFullFetch (d : MongoDB)
    (h : d.opt.ignoreProjection = true) :
    (∀ projection, d.getFindOneProjection projection = none)
    ∧ (∀ sort pagination projection fo,
        d.queryFindOptions sort pagination projection = some fo →
        fo.projection = none)
    ∧ (∀ docs id p q, d.Get docs id p = d.Get docs id q)
    ∧ (∀ docs filter sort pagination p q sortSem,
        d.Query docs filter sort pagination p sortSem
          = d.Query docs filter sort pagination q sortSem) := by
  have hopts : ∀ sort pagination projection,
      d.queryFindOptions sort pagination projection
        = d.queryFindOptions sort pagination none := by
    intro sort pagination projection
    unfold MongoDB.queryFindOptions
    simp [h]
  refine ⟨?_, ?_, ?_, ?_⟩
  · intro projection
    simp [MongoDB.getFindOneProjection, h]
  · intro sort pagination projection fo hfo
    rcases sort with _ | s
    · rcases pagination with _ | p <;>
      · simp [MongoDB.queryFindOptions, h] at hfo
        rw [← hfo]
    · cases hms : d.mongoSort s with
      | none => simp [MongoDB.queryFindOptions, h, hms] at hfo
      | some sd =>
        rcases pagination with _ | p <;>
        · simp [MongoDB.queryFindOptions, h, hms] at hfo
          rw [← hfo]
  · intro docs id p q
    simp [MongoDB.Get, MongoDB.getFindOneProjection, h]
  · intro docs filter sort pagination p q sortSem
    unfold MongoDB.Query
    rw [hopts sort pagination p, hopts sort pagination q]

/-- C8 witness: with the toggle set through Options().IgnoreProjection(),
the Get fetch options carry no projection even when an attributes list was
supplied. -/
theorem ignoreProjection_forcesFullFetch_witness :
    MongoDB.getFindOneProjection
      { sampleDB with opt := Options.IgnoreProjection }
      (some ⟨["userName"], []⟩) = none :=
  (ignoreProjection_forcesFullFetch
    { sampleDB with opt := Options.IgnoreProjection } rfl).1
    (some ⟨["userName"], []⟩)

/-- C9: when the Attributes list is empty and the ExcludedAttributes list is
not, mongoProjection returns the empty projection document — the exclusion
branch iterates the (empty) Attributes list, so no listed attribute is
excluded from the fetch. -/
theorem mongoProjection_emptyOnExcludedOnly (d : MongoDB)
    (projection : Projection) (h1 : projection.Attributes = [])
    (_h2 : projection.ExcludedAttributes ≠ []) :
    d.mongoProjection projection = [] := by
  unfold MongoDB.mongoProjection
  simp [h1]

/-- C9 witness: excluding userName with no include list produces the empty
projection document. -/
theorem mongoProjection_emptyOnExcludedOnly_witness :
    sampleDB.mongoProjection ⟨[], ["userName"]⟩ = [] :=
  mongoProjection_emptyOnExcludedOnly sampleDB ⟨[], ["userName"]⟩ rfl
    (by simp)

/-- C10: for the ascending, descending and default sort orders, mongoSort
returns a single-field sort document whose key falls back to the internal
"_id" field when sort.By is empty or resolves to no persistence path; any
other order value panics (modelled as `none`). -/
theorem mongoSort_singleField_orPanic (d : MongoDB) (sort : SortParam) :
    (sort.Order = SortAsc ∨ sort.Order = SortDefault →
        d.mongoSort sort = some [(d.sortBySelection sort, 1)])
    ∧ (sort.Order = SortDesc →
        d.mongoSort sort = some [(d.sortBySelection sort, -1)])
    ∧ (sort.Order ≠ SortAsc → sort.Order ≠ SortDefault →
        sort.Order ≠ SortDesc → d.mongoSort sort = none)
    ∧ (sort.By = "" ∨ d.mongoPathFor sort.By = "" →
        d.sortBySelection sort = "_id") := by
  refine ⟨?_, ?_, ?_, ?_⟩
  · intro hv
    unfold MongoDB.mongoSort
    rcases hv with hv | hv <;> simp [hv]
  · intro hv
    unfold MongoDB.mongoSort
    simp [hv, SortDesc, SortAsc, SortDefault]
  · intro h1 h2 h3
    unfold MongoDB.mongoSort
    simp [h1, h2, h3]
  · intro hv
    unfold MongoDB.sortBySelection
    rcases hv with hv | hv
    · simp [hv]
    · by_cases hby : sort.By.length > 0
      · simp [hby, hv]
      · simp [hby]

/-- C5: for every non-nil pagination, the skip/limit pair Query issues is
(StartIndex - 1, Count); a Query carrying it returns exactly the matching
documents after dropping StartIndex - 1 of them (StartIndex is 1-based) and
taking at most Count. -/
theorem Query_pagination_spec (d : MongoDB) (docs : List Resource)
    (pred : Resource → Bool) (pagination : Pagination)
    (projection : Option Projection)
    (sortSem : BsonD → List Resource → List Resource)
    (h1 : 1 ≤ pagination.StartIndex) (h2 : 0 ≤ pagination.Count) :
    d.mongoPagination pagination
        = (pagination.StartIndex - 1, pagination.Count)
    ∧ d.Query docs (.ok pred) none (some pagination) projection sortSem
        = some (.ok (((docs.filter pred).drop
            (pagination.StartIndex - 1).toNat).take pagination.Count.toNat))
    ∧ (((pagination.StartIndex - 1).toNat : Int) = pagination.StartIndex - 1)
    ∧ ((((docs.filter pred).drop (pagination.StartIndex - 1).toNat).take
          pagination.Count.toNat).length : Int) ≤ pagination.Count := by
  refine ⟨rfl, ?_, by omega, ?_⟩
  · by_cases hip : d.opt.ignoreProjection <;>
      rcases projection with _ | pr <;>
        simp [MongoDB.Query, MongoDB.queryFindOptions, MongoDB.mongoPagination,
          findMany, hip]
  · have hlen : (((docs.filter pred).drop
        (pagination.StartIndex - 1).toNat).take
          pagination.Count.toNat).length ≤ pagination.Count.toNat :=
      List.length_take_le _ _
    omega

/-- C5 witness: startIndex 2 with count 5 over a two-document store skips
the first document and returns the second. -/
theorem Query_pagination_spec_witness :
    sampleDB.Query [⟨"a", "1", "la"⟩, ⟨"b", "2", "lb"⟩]
      (.ok (fun _ => true)) none (some ⟨2, 5⟩) none (fun _ l => l)
      = some (.ok [⟨"b", "2", "lb"⟩]) := by
  have h := Query_pagination_spec sampleDB
    [⟨"a", "1", "la"⟩, ⟨"b", "2", "lb"⟩] (fun _ => true) ⟨2, 5⟩ none
    (fun _ l => l) (by decide) (by decide)
  rw [h.2.1]
  rfl

/-- The cursor loop read declaratively: walkTokens is the monadic fold of
subAttributeForName over the tokens. -/
theorem walkTokens_eq_foldlM (a : Attr) (ts : List String) :
    walkTokens a ts = ts.foldlM Attr.subAttributeForName a := by
  induction ts generalizing a with
  | nil => rfl
  | cons t rest ih =>
    rw [List.foldlM_cons]
    unfold walkTokens
    cases h : a.subAttributeForName t with
    | none => rfl
    | some s => simpa using ih s

/-- C6: mongoPathFor walks the attribute tree from the resource type's super
attribute after skipping a leading token equal to the core schema's URN;
when the walk resolves an attribute with registered metadata it returns the
metadata's MongoPath, otherwise the attribute's own path; a path that fails
to compile, or whose walk meets a step naming no sub-attribute, yields the
empty string. -/
theorem mongoPathFor_resolution (d : MongoDB) (path : String) :
    (d.compilePath path = none → d.mongoPathFor path = "")
    ∧ (∀ tokens, d.compilePath path = some tokens →
        (((skipSchemaToken d.schemaId tokens).foldlM
            Attr.subAttributeForName d.superAttr) = none →
          d.mongoPathFor path = "")
        ∧ (∀ a, skipSchemaToken d.schemaId tokens ≠ [] →
            ((skipSchemaToken d.schemaId tokens).foldlM
              Attr.subAttributeForName d.superAttr) = some a →
            (∀ md, d.metadataHub.lookup a.id = some md →
               d.mongoPathFor path = md.MongoPath)
            ∧ (d.metadataHub.lookup a.id = none →
               d.mongoPathFor path = a.path))) := by
  constructor
  · intro hc
    simp [MongoDB.mongoPathFor, hc]
  · intro tokens hc
    constructor
    · intro hwalk
      cases hs : skipSchemaToken d.schemaId tokens with
      | nil => simp [MongoDB.mongoPathFor, hc, hs]
      | cons t rest =>
        rw [hs, ← walkTokens_eq_foldlM] at hwalk
        simp [MongoDB.mongoPathFor, hc, hs, hwalk]
    · intro a hne hwalk
      cases hs : skipSchemaToken d.schemaId tokens with
      | nil => exact absurd hs hne
      | cons t rest =>
        rw [hs, ← walkTokens_eq_foldlM] at hwalk
        constructor
        · intro md hmd
          simp [MongoDB.mongoPathFor, hc, hs, hwalk, hmd]
        · intro hmd
          simp [MongoDB.mongoPathFor, hc, hs, hwalk, hmd]

/-- A concrete database model whose userName attribute carries a registered
MongoPath alias, with a two-entry compiled-path table. -/
def samplePathDB : MongoDB :=
  { superAttr :=
      .mk "urn:User" "User" "urn:User"
        [.mk "urn:User:userName" "userName" "userName" []]
    schemaId := "urn:User"
    metadataHub := [("urn:User:userName", ⟨"uName"⟩)]
    compilePath := fun s =>
      if s = "userName" then some ["userName"]
      else if s = "urn:User:userName" then some ["urn:User", "userName"]
      else none
    opt := ⟨false⟩ }

/-- C6 witness: the path userName resolves to the registered MongoPath alias
uName. -/
theorem mongoPathFor_resolution_witness :
    samplePathDB.mongoPathFor "userName" = "uName" := by
  have h := (mongoPathFor_resolution samplePathDB "userName").2
    ["userName"] rfl
  exact (h.2 (Attr.mk "urn:User:userName" "userName" "userName" [])
    (by decide) rfl).1 ⟨"uName"⟩ rfl

theorem filterLE_trans {f g h : PropertyFilter} (h1 : filterLE f g)
    (h2 : filterLE g h) : filterLE f h := by
  unfold filterLE at *
  omega

/-- Inserting an element with bubble yields the same multiset as consing
it. -/
theorem bubble_perm (acc : List PropertyFilter) (x : PropertyFilter) :
    List.Perm (bubble acc x) (x :: acc) := by
  induction acc with
  | nil => exact List.Perm.refl [x]
  | cons y ys ih =>
    unfold bubble
    by_cases hx : x.Order < y.Order
    · simp only [if_pos hx]
      exact (ih.cons y).trans (List.Perm.swap x y ys)
    · simp only [if_neg hx]
      exact List.Perm.refl (x :: y :: ys)

/-- bubble keeps the reversed prefix sorted (greatest first) when the new
element carries a tag above every element already placed. -/
theorem bubble_pairwise (acc : List PropertyFilter) (x : PropertyFilter)
    (hacc : acc.Pairwise (fun a b => filterLE b a))
    (htag : ∀ a ∈ acc, a.tag < x.tag) :
    (bubble acc x).Pairwise (fun a b => filterLE b a) := by
  induction acc with
  | nil => simp [bubble]
  | cons y ys ih =>
    rw [List.pairwise_cons] at hacc
    obtain ⟨hy, hys⟩ := hacc
    unfold bubble
    by_cases hx : x.Order < y.Order
    · simp only [if_pos hx]
      rw [List.pairwise_cons]
      constructor
      · intro z hz
        rw [(bubble_perm ys x).mem_iff, List.mem_cons] at hz
        rcases hz with rfl | hz
        · exact Or.inl hx
        · exact hy z hz
      · exact ih hys (fun a ha => htag a (List.mem_cons_of_mem y ha))
    · simp only [if_neg hx]
      have hyx : filterLE y x := by
        have hyt : y.tag < x.tag := htag y (List.mem_cons_self y ys)
        unfold filterLE
        omega
      rw [List.pairwise_cons]
      constructor
      · intro z hz
        rcases List.mem_cons.mp hz with rfl | hz2
        · exact hyx
        · exact filterLE_trans (hy z hz2) hyx
      · exact List.pairwise_cons.mpr ⟨hy, hys⟩

/-- Folding bubble over elements of strictly increasing tags keeps the
reversed accumulator sorted and permutes the inputs. -/
theorem foldl_bubble_sorted (fs : List PropertyFilter)
    (acc : List PropertyFilter)
    (hacc : acc.Pairwise (fun a b => filterLE b a))
    (hcross : ∀ a ∈ acc, ∀ f ∈ fs, a.tag < f.tag)
    (hfs : fs.Pairwise (fun a b => a.tag < b.tag)) :
    (fs.foldl bubble acc).Pairwise (fun a b => filterLE b a)
    ∧ List.Perm (fs.foldl bubble acc) (fs ++ acc) := by
  induction fs generalizing acc with
  | nil => exact ⟨hacc, List.Perm.refl acc⟩
  | cons x fs ih =>
    rw [List.foldl_cons]
    rw [List.pairwise_cons] at hfs
    obtain ⟨hxf, hfs2⟩ := hfs
    have hacc2 := bubble_pairwise acc x hacc
      (fun a ha => hcross a ha x (List.mem_cons_self x fs))
    have hcross2 : ∀ a ∈ bubble acc x, ∀ f ∈ fs, a.tag < f.tag := by
      intro a ha f hf
      rw [(bubble_perm acc x).mem_iff, List.mem_cons] at ha
      rcases ha with rfl | ha
      · exact hxf f hf
      · exact hcross a ha f (List.mem_cons_of_mem x hf)
    obtain ⟨hp, hperm⟩ := ih (bubble acc x) hacc2 hcross2 hfs2
    refine ⟨hp, ?_⟩
    have h1 : List.Perm (fs ++ bubble acc x) (fs ++ (x :: acc)) :=
      (bubble_perm acc x).append_left fs
    have h2 : List.Perm (fs ++ (x :: acc)) (x :: (fs ++ acc)) :=
      List.perm_middle
    exact (hperm.trans h1).trans h2

/-- The insertion sort of buildIndex, on a list of strictly increasing tags,
returns a permutation of its input sorted by filterLE: ascending Order, ties
kept in tag (load) order. -/
theorem sortFilters_sorted_perm (fs : List PropertyFilter)
    (hfs : fs.Pairwise (fun a b => a.tag < b.tag)) :
    List.Perm (sortFilters fs) fs ∧ (sortFilters fs).Pairwise filterLE := by
  unfold sortFilters
  by_cases hlen : fs.length > 1
  · simp only [if_pos hlen]
    obtain ⟨hp, hperm⟩ := foldl_bubble_sorted fs [] List.Pairwise.nil
      (by intro a ha; cases ha) hfs
    rw [List.append_nil] at hperm
    constructor
    · exact ((fs.foldl bubble []).reverse_perm).trans hperm
    · rw [List.pairwise_reverse]
      exact hp
  · simp only [if_neg hlen]
    refine ⟨List.Perm.refl fs, ?_⟩
    match fs with
    | [] => exact List.Pairwise.nil
    | [a] => simp
    | a :: b :: t => simp at hlen

theorem dedupStep_subset (acc : List Attr) (a : Attr) :
    acc ⊆ dedupStep acc a := by
  unfold dedupStep
  by_cases h : acc.any (fun b => b.id == a.id)
  · simp [h]
  · simp only [if_neg h]
    exact List.subset_append_left acc [a]

theorem foldl_dedupStep_subset (l : List Attr) (acc : List Attr) :
    acc ⊆ l.foldl dedupStep acc := by
  induction l generalizing acc with
  | nil => exact fun x hx => hx
  | cons a rest ih =>
    rw [List.foldl_cons]
    exact fun x hx => ih (dedupStep acc a) (dedupStep_subset acc a hx)

theorem mem_foldl_dedupStep (l : List Attr) (acc : List Attr) (x : Attr)
    (hx : x ∈ l.foldl dedupStep acc) : x ∈ acc ∨ x ∈ l := by
  induction l generalizing acc with
  | nil => exact Or.inl hx
  | cons a rest ih =>
    rw [List.foldl_cons] at hx
    rcases ih (dedupStep acc a) hx with hstep | hrest
    · unfold dedupStep at hstep
      by_cases h : acc.any (fun b => b.id == a.id)
      · rw [if_pos h] at hstep
        exact Or.inl hstep
      · rw [if_neg h] at hstep
        rcases List.mem_append.mp hstep with h1 | h2
        · exact Or.inl h1
        · exact Or.inr (List.mem_cons.mpr (Or.inl (List.mem_singleton.mp h2)))
    · exact Or.inr (List.mem_cons_of_mem a hrest)

theorem foldl_dedupStep_covers (l : List Attr) (acc : List Attr) (x : Attr)
    (hx : x ∈ l) : ∃ y ∈ l.foldl dedupStep acc, y.id = x.id := by
  induction l generalizing acc with
  | nil => cases hx
  | cons a rest ih =>
    rw [List.foldl_cons]
    rcases List.mem_cons.mp hx with rfl | hx2
    · by_cases h : acc.any (fun b => b.id == x.id)
      · obtain ⟨b, hb, hbid⟩ := List.any_eq_true.mp h
        refine ⟨b, ?_, by simpa using hbid⟩
        exact foldl_dedupStep_subset rest (dedupStep acc x)
          (dedupStep_subset acc x hb)
      · refine ⟨x, ?_, rfl⟩
        have hx3 : x ∈ dedupStep acc x := by
          unfold dedupStep
          rw [if_neg h]
          exact List.mem_append.mpr (Or.inr (List.mem_singleton.mpr rfl))
        exact foldl_dedupStep_subset rest (dedupStep acc x) hx3
    · exact ih (dedupStep acc a) hx2

/-- The none case of a lookup into the entry list: no attribute of the set
carries the key together with a non-empty supporter list. -/
theorem lookup_indexEntries_none (fs : List PropertyFilter)
    (attrs : List Attr) (i : String) :
    (attrs.filterMap (indexEntry fs)).lookup i = none ↔
      ∀ a ∈ attrs, a.id = i → fs.filter (fun f => f.Supports a) = [] := by
  induction attrs with
  | nil => simp
  | cons a rest ih =>
    by_cases hsup : (fs.filter (fun f => f.Supports a)).isEmpty = true
    · have hnone : indexEntry fs a = none := by
        unfold indexEntry
        simp [hsup]
      rw [List.filterMap_cons, hnone]
      constructor
      · intro h b hb hbi
        rcases List.mem_cons.mp hb with rfl | hb2
        · exact List.isEmpty_iff.mp hsup
        · exact (ih.mp h) b hb2 hbi
      · intro h
        exact ih.mpr (fun b hb hbi => h b (List.mem_cons_of_mem a hb) hbi)
    · have hsome : indexEntry fs a
          = some (a.id, sortFilters (fs.filter (fun f => f.Supports a))) := by
        unfold indexEntry
        simp [hsup]
      rw [List.filterMap_cons, hsome]
      by_cases hid : a.id = i
      · constructor
        · intro h
          simp [List.lookup, hid] at h
        · intro h
          have := h a (List.mem_cons_self a rest) hid
          rw [this] at hsup
          simp at hsup
      · have hbeq : (i == a.id) = false :=
          beq_eq_false_iff_ne.mpr (fun he => hid he.symm)
        constructor
        · intro h b hb hbi
          rcases List.mem_cons.mp hb with rfl | hb2
          · exact absurd hbi hid
          · refine (ih.mp ?_) b hb2 hbi
            simpa only [List.lookup, hbeq] using h
        · intro h
          have hrest := ih.mpr
            (fun b hb hbi => h b (List.mem_cons_of_mem a hb) hbi)
          simpa only [List.lookup, hbeq] using hrest

/-- The some case of a lookup into the entry list: the value is the sorted
supporter list of an attribute of the set carrying the key. -/
theorem lookup_indexEntries_some (fs : List PropertyFilter)
    (attrs : List Attr) (i : String) (l : List PropertyFilter)
    (h : (attrs.filterMap (indexEntry fs)).lookup i = some l) :
    ∃ a ∈ attrs, a.id = i ∧ fs.filter (fun f => f.Supports a) ≠ []
      ∧ l = sortFilters (fs.filter (fun f => f.Supports a)) := by
  induction attrs with
  | nil => simp at h
  | cons a rest ih =>
    by_cases hsup : (fs.filter (fun f => f.Supports a)).isEmpty = true
    · have hnone : indexEntry fs a = none := by
        unfold indexEntry
        simp [hsup]
      rw [List.filterMap_cons, hnone] at h
      obtain ⟨b, hb, hbi, hbne, hbeq⟩ := ih h
      exact ⟨b, List.mem_cons_of_mem a hb, hbi, hbne, hbeq⟩
    · have hsome : indexEntry fs a
          = some (a.id, sortFilters (fs.filter (fun f => f.Supports a))) := by
        unfold indexEntry
        simp [hsup]
      rw [List.filterMap_cons, hsome] at h
      by_cases hid : a.id = i
      · refine ⟨a, List.mem_cons_self a rest, hid, ?_, ?_⟩
        · intro hnil
          rw [hnil] at hsup
          simp at hsup
        · have : some (sortFilters (fs.filter (fun f => f.Supports a)))
              = some l := by
            simpa [List.lookup, hid] using h
          exact (Option.some_injective _ this).symm
      · have hbeq : (i == a.id) = false :=
          beq_eq_false_iff_ne.mpr (fun he => hid he.symm)
        have h2 : (rest.filterMap (indexEntry fs)).lookup i = some l := by
          simpa only [List.lookup, hbeq] using h
        obtain ⟨b, hb, hbi, hbne, hbeq⟩ := ih h2
        exact ⟨b, List.mem_cons_of_mem a hb, hbi, hbne, hbeq⟩

/-- C4: the buildIndex keys are exactly the ids of the derived attributes
supported by at least one filter; the value under such a key is a
permutation of the filters supporting that attribute (taken in load order)
that is pairwise filterLE — ascending Order with ties kept in load order,
which pins the list uniquely since load positions are distinct. -/
theorem buildIndex_keysAndOrder (resourceTypes : List ResourceType)
    (filters : List PropertyFilter)
    (htags : filters.Pairwise (fun f g => f.tag < g.tag))
    (hids : ∀ a ∈ derivedAttrUnion resourceTypes,
      ∀ b ∈ derivedAttrUnion resourceTypes, a.id = b.id → a = b) :
    (∀ i, (buildIndex resourceTypes filters).lookup i ≠ none ↔
        ∃ a ∈ derivedAttrUnion resourceTypes, a.id = i
          ∧ ∃ f ∈ filters, f.Supports a = true)
    ∧ (∀ a ∈ derivedAttrUnion resourceTypes, ∀ l,
        (buildIndex resourceTypes filters).lookup a.id = some l →
          List.Perm l (filters.filter (fun f => f.Supports a))
          ∧ l.Pairwise filterLE) := by
  have hmem_dedup : ∀ x ∈ dedupById (derivedAttrUnion resourceTypes),
      x ∈ derivedAttrUnion resourceTypes := by
    intro x hx
    rcases mem_foldl_dedupStep _ [] x hx with h0 | h1
    · cases h0
    · exact h1
  have hin_dedup : ∀ a ∈ derivedAttrUnion resourceTypes,
      a ∈ dedupById (derivedAttrUnion resourceTypes) := by
    intro a ha
    obtain ⟨y, hy, hyid⟩ := foldl_dedupStep_covers _ [] a ha
    have hyu := hmem_dedup y hy
    rwa [hids y hyu a ha hyid] at hy
  constructor
  · intro i
    constructor
    · intro hne
      cases hl : (buildIndex resourceTypes filters).lookup i with
      | none => exact absurd hl hne
      | some l =>
        unfold buildIndex at hl
        obtain ⟨a, ha, hai, hfne, _⟩ :=
          lookup_indexEntries_some filters _ i l hl
        obtain ⟨f, hf⟩ := List.exists_mem_of_ne_nil _ hfne
        rw [List.mem_filter] at hf
        exact ⟨a, hmem_dedup a ha, hai, f, hf.1, hf.2⟩
    · rintro ⟨a, ha, hai, f, hfm, hfs⟩
      intro hlook
      unfold buildIndex at hlook
      have hfil := (lookup_indexEntries_none filters _ i).mp hlook a
        (hin_dedup a ha) hai
      have hfmem : f ∈ filters.filter (fun g => g.Supports a) :=
        List.mem_filter.mpr ⟨hfm, hfs⟩
      rw [hfil] at hfmem
      cases hfmem
  · intro a ha l hl
    unfold buildIndex at hl
    obtain ⟨b, hb, hbid, hbne, hbeq⟩ :=
      lookup_indexEntries_some filters _ a.id l hl
    have hba : b = a := hids b (hmem_dedup b hb) a ha hbid
    subst hba
    have hsub : (filters.filter (fun f => f.Supports b)).Pairwise
        (fun f g => f.tag < g.tag) :=
      htags.sublist (List.filter_sublist filters)
    obtain ⟨hperm, hsort⟩ := sortFilters_sorted_perm _ hsub
    rw [hbeq]
    exact ⟨hperm, hsort⟩

/-- One attribute for the buildIndex evaluation. -/
def attrA : Attr := .mk "a" "a" "a" []

/-- First loaded filter: order 2, supports everything. -/
def pfA : PropertyFilter := ⟨0, 2, fun _ => true⟩

/-- Second loaded filter: order 1, supports everything. -/
def pfB : PropertyFilter := ⟨1, 1, fun _ => true⟩

/-- C4 witness: with one attribute and the two filters above loaded in the
order pfA, pfB, the index entry under key a evaluates to [pfB, pfA] — order
1 before order 2 — which is a sorted permutation of the supporter list. -/
theorem buildIndex_keysAndOrder_witness :
    List.Perm [pfB, pfA] ([pfA, pfB].filter (fun f => f.Supports attrA))
      ∧ [pfB, pfA].Pairwise filterLE :=
  (buildIndex_keysAndOrder [⟨[attrA]⟩] [pfA, pfB]
    (by simp [pfA, pfB])
    (by
      intro a ha b hb _
      simp [derivedAttrUnion, attrA] at ha hb
      rw [ha, hb])).2
    attrA (by simp [derivedAttrUnion]) [pfB, pfA] rfl

/-- C10 witness: an ascending sort with an unresolvable By path sorts on
"_id"; evaluated through mongoSort. -/
theorem mongoSort_singleField_orPanic_witness :
    sampleDB.mongoSort ⟨"userName", "ascending"⟩ = some [("_id", 1)] := by
  have h := mongoSort_singleField_orPanic sampleDB ⟨"userName", "ascending"⟩
  have h1 := h.1 (Or.inl rfl)
  have h4 := h.2.2.2 (Or.inr (by rfl))
  rw [h1, h4]

end GoScim
